import Mathlib

/-!
Shallow embedding of `src/tools/sanitize.py`.

The program opens a zip archive, and for each entry either rewrites it
(when its name is `content.xml`: decode UTF-8, apply eleven literal
`str.replace` substitutions in order, re-encode) or copies it unchanged.
We model Python strings as `List Char` (sequences of Unicode scalar
values), archive entries as records of name, metadata and raw bytes, and
the run as a total function into `Except` (a `UnicodeDecodeError` aborts
the run).
-/

namespace Sanitize

/-! ### Python `str.replace` (replace every non-overlapping occurrence,
scanning left to right), as a structural recursion.

`replAux s r k t` is the state of the scan: `k` characters of a match
that began earlier still have to be skipped.  At `k = 0` the scanner
tests whether the search literal `s` starts here; on a match it emits
the replacement `r` and skips the remaining `s.length - 1` characters.
`replAux` is only used with nonempty `s`; `replaceAll` handles the
empty-search case (Python inserts `r` between all characters) apart. -/

def replAux (s r : List Char) (k : Nat) : List Char → List Char
  | [] => []
  | c :: t =>
    match k with
    | Nat.succ k' => replAux s r k' t
    | 0 =>
      if List.isPrefixOf s (c :: t) then r ++ replAux s r (s.length - 1) t
      else c :: replAux s r 0 t

def replaceAll (s r t : List Char) : List Char :=
  if s.isEmpty then r ++ (t.map (fun c => c :: r)).flatten
  else replAux s r 0 t

/-- The pieces of `t` between the matches of `s`, produced by the same
left-to-right scan as `replAux`.  `replaceAll s r t` is these pieces
joined with `r` in between (proved below). -/
def splitAux (s : List Char) (k : Nat) : List Char → List (List Char)
  | [] => [[]]
  | c :: t =>
    match k with
    | Nat.succ k' => splitAux s k' t
    | 0 =>
      if List.isPrefixOf s (c :: t) then [] :: splitAux s (s.length - 1) t
      else
        match splitAux s 0 t with
        | [] => [[c]]
        | g :: gs => (c :: g) :: gs

/-- Python `str.count`: the number of non-overlapping occurrences found
by the same left-to-right scan. -/
def countAux (s : List Char) (k : Nat) : List Char → Nat
  | [] => 0
  | c :: t =>
    match k with
    | Nat.succ k' => countAux s k' t
    | 0 =>
      if List.isPrefixOf s (c :: t) then 1 + countAux s (s.length - 1) t
      else countAux s 0 t

def countOcc (s t : List Char) : Nat := countAux s 0 t

/-- Boolean substring test (`s in t` for Python strings). -/
def occursIn (s : List Char) : List Char → Bool
  | [] => List.isPrefixOf s []
  | c :: t => List.isPrefixOf s (c :: t) || occursIn s t

/-- Joining pieces with a separator: `joinSep r [g1, ..., gn]`
is `g1 ++ r ++ g2 ++ r ++ ... ++ r ++ gn`. -/
def joinSep (r : List Char) : List (List Char) → List Char
  | [] => []
  | [g] => g
  | g :: gs => g ++ r ++ joinSep r gs

/-- No nonempty suffix of `a` is a prefix of `b`. -/
def noHangover (a b : List Char) : Bool :=
  match a with
  | [] => true
  | c :: a' => !(List.isPrefixOf (c :: a') b) && noHangover a' b

/-- Substituting `r` for `s` can never manufacture a new occurrence of
`w`: `w` does not occur in `r`, `r` does not occur in `w`, and no
nonempty part of `w` can straddle a boundary of an inserted copy of
`r`. -/
def noCrossOccurrence (r w : List Char) : Bool :=
  !(occursIn w r) && !(occursIn r w) && noHangover r w && noHangover w r

/-! ### The replacement rules of `sanitize`, transcribed verbatim in
program order (search literal, replacement literal). -/

def sInvoiceNo : List Char := "<text:span text:style-name=\"T2\">FAKTURA - DAŇOVÝ DOKLAD č. 300</text:span><text:span text:style-name=\"T3\">6</text:span><text:span text:style-name=\"T4\">2025</text:span>".toList

def rInvoiceNo : List Char := "<text:span text:style-name=\"T2\">FAKTURA - DAŇOVÝ DOKLAD č. {{INVOICE_NO}}</text:span>".toList

def sIssueDay : List Char := "<text:span text:style-name=\"T16\">3</text:span><text:span text:style-name=\"T17\">0</text:span><text:span text:style-name=\"T18\">.</text:span>".toList

def rIssueDay : List Char := "<text:span text:style-name=\"T16\">{{ISSUE_DAY}}.</text:span>".toList

def sIssueMonthYear : List Char := "<text:span text:style-name=\"T21\">6</text:span><text:span text:style-name=\"T22\">. 2025</text:span>".toList

def rIssueMonthYear : List Char := "<text:span text:style-name=\"T21\">{{ISSUE_MONTH_YEAR}}</text:span>".toList

def sDuzpDay : List Char := "<text:span text:style-name=\"T29\"><text:s text:c=\"2\"/></text:span><text:span text:style-name=\"T30\">30</text:span><text:span text:style-name=\"T31\">.</text:span>".toList

def rDuzpDay : List Char := "<text:span text:style-name=\"T30\">{{DUZP_DAY}}.</text:span>".toList

def sDuzpMonthYear : List Char := "<text:span text:style-name=\"T34\">6</text:span><text:span text:style-name=\"T35\">. 2025</text:span>".toList

def rDuzpMonthYear : List Char := "<text:span text:style-name=\"T34\">{{DUZP_MONTH_YEAR}}</text:span>".toList

def sDueDay : List Char := "<text:span text:style-name=\"T42\">30</text:span><text:span text:style-name=\"T43\">.</text:span>".toList

def rDueDay : List Char := "<text:span text:style-name=\"T42\">{{DUE_DAY}}.</text:span>".toList

def sDueMonthYear : List Char := "<text:span text:style-name=\"T46\">9</text:span><text:span text:style-name=\"T47\">. 2025</text:span>".toList

def rDueMonthYear : List Char := "<text:span text:style-name=\"T46\">{{DUE_MONTH_YEAR}}</text:span>".toList

def sVS : List Char := "30062025".toList

def rVS : List Char := "{{VS}}".toList

def sCustomerBlock : List Char := "<text:h text:style-name=\"Heading3\" text:outline-level=\"3\"><text:line-break/>ScioŠkola Praha Nusle - základní škola, s.r.o.</text:h><text:p text:style-name=\"P72\">Boleslavova 250/1, Nusle, 140 00 Praha 4</text:p><text:p text:style-name=\"P73\">Česká republika</text:p><text:h text:style-name=\"Heading3\" text:outline-level=\"3\">IČ: 07231881</text:h>".toList

def rCustomerBlock : List Char := "{{CUSTOMER_BLOCK}}".toList

def sDescription : List Char := "<text:span text:style-name=\"T108\">Konzultační a programátorské služby na<text:s/></text:span><text:span text:style-name=\"T109\">EduMap</text:span><text:span text:style-name=\"T110\">.</text:span>".toList

def rDescription : List Char := "<text:span text:style-name=\"T108\">{{DESCRIPTION}}</text:span>".toList

def sAmount : List Char := "90<text:s/>000,00 Kč".toList

def rAmount : List Char := "{{AMOUNT}}".toList

def rules : List (List Char × List Char) :=
  [(sInvoiceNo, rInvoiceNo),
   (sIssueDay, rIssueDay),
   (sIssueMonthYear, rIssueMonthYear),
   (sDuzpDay, rDuzpDay),
   (sDuzpMonthYear, rDuzpMonthYear),
   (sDueDay, rDueDay),
   (sDueMonthYear, rDueMonthYear),
   (sVS, rVS),
   (sCustomerBlock, rCustomerBlock),
   (sDescription, rDescription),
   (sAmount, rAmount)]

/-- Apply a list of replacement rules in order, each operating on the
text produced by the previous one. -/
def applyList : List (List Char × List Char) → List Char → List Char
  | [], t => t
  | (s, r) :: L, t => applyList L (replaceAll s r t)

/-- The full chain of substitutions the program performs on the decoded
`content.xml` text. -/
def applyRules (t : List Char) : List Char := applyList rules t

/-! ### UTF-8, as Python's strict codec (rejects truncated sequences,
bad continuation bytes, overlong forms, surrogates, and values above
U+10FFFF). -/

def utf8EncodeChar (c : Char) : List Nat :=
  let n := c.toNat
  if n < 0x80 then [n]
  else if n < 0x800 then [0xC0 + n / 64, 0x80 + n % 64]
  else if n < 0x10000 then [0xE0 + n / 4096, 0x80 + (n / 64) % 64, 0x80 + n % 64]
  else [0xF0 + n / 262144, 0x80 + (n / 4096) % 64, 0x80 + (n / 64) % 64, 0x80 + n % 64]

def utf8Encode (cs : List Char) : List Nat := (cs.map utf8EncodeChar).flatten

def utf8Decode : List Nat → Option (List Char)
  | [] => some []
  | b :: bs =>
    if b < 0x80 then
      match utf8Decode bs with
      | some cs => some (Char.ofNat b :: cs)
      | none => none
    else if b < 0xC2 then none
    else if b < 0xE0 then
      match bs with
      | b1 :: bs' =>
        if 0x80 ≤ b1 && b1 < 0xC0 then
          match utf8Decode bs' with
          | some cs => some (Char.ofNat ((b - 0xC0) * 64 + (b1 - 0x80)) :: cs)
          | none => none
        else none
      | [] => none
    else if b < 0xF0 then
      match bs with
      | b1 :: b2 :: bs' =>
        if (if b == 0xE0 then 0xA0 else 0x80) ≤ b1 && b1 < (if b == 0xED then 0xA0 else 0xC0)
            && 0x80 ≤ b2 && b2 < 0xC0 then
          match utf8Decode bs' with
          | some cs => some (Char.ofNat ((b - 0xE0) * 4096 + (b1 - 0x80) * 64 + (b2 - 0x80)) :: cs)
          | none => none
        else none
      | _ => none
    else if b < 0xF5 then
      match bs with
      | b1 :: b2 :: b3 :: bs' =>
        if (if b == 0xF0 then 0x90 else 0x80) ≤ b1 && b1 < (if b == 0xF4 then 0x90 else 0xC0)
            && 0x80 ≤ b2 && b2 < 0xC0 && 0x80 ≤ b3 && b3 < 0xC0 then
          match utf8Decode bs' with
          | some cs =>
            some (Char.ofNat ((b - 0xF0) * 262144 + (b1 - 0x80) * 4096 + (b2 - 0x80) * 64 + (b3 - 0x80)) :: cs)
          | none => none
        else none
      | _ => none
    else none

/-! ### The archive pass of `sanitize`. -/

/-- Per-entry metadata carried by a `zipfile.ZipInfo` besides the name.
`⟨0, 0, 0⟩` stands for the defaults a fresh `ZipInfo(filename)` gets
(`date_time` 1980-01-01, `ZIP_STORED`, zero attributes). -/
structure ZipMeta where
  dateTime : Nat
  compressType : Nat
  externalAttr : Nat
deriving DecidableEq, Repr

def defaultMeta : ZipMeta := ⟨0, 0, 0⟩

structure ZipInfo where
  filename : String
  meta : ZipMeta
deriving DecidableEq, Repr

/-- An archive entry: its `ZipInfo` and its raw bytes. -/
structure ZipEntry where
  info : ZipInfo
  content : List Nat
deriving DecidableEq, Repr

inductive SanitizeError where
  | archiveReadError
  | archiveWriteError
  | encodingError
deriving DecidableEq, Repr

def targetName : String := "content.xml"

def TEMPLATE_PATH : String := "src/templates/template.odt"

def OUTPUT_PATH : String := "src/templates/template_clean.odt"

/-- One iteration of the loop body on the archive data model of the
spec, whose invariant is that entry names are unique, so that the
by-name read `zin.read(item.filename)` returns this entry's own bytes
(`sanitizeRun` below drops that assumption): the target entry is
decoded, rewritten and re-encoded (and written back under its bare
name, so with fresh default metadata); every other entry is copied
unchanged, metadata included. -/
def sanitizeEntry (e : ZipEntry) : Except SanitizeError ZipEntry :=
  if e.info.filename = targetName then
    match utf8Decode e.content with
    | none => Except.error SanitizeError.encodingError
    | some xml =>
      Except.ok { info := { filename := e.info.filename, meta := defaultMeta },
                  content := utf8Encode (applyRules xml) }
  else Except.ok e

/-- The run over the entry list, in input order, under the unique-name
invariant; the first failing entry aborts the run.  `sanitizeRun`
below is the run without that invariant, and the two agree whenever
names are unique (`sanitizeRun_eq_of_unique_names`). -/
def sanitizeEntries : List ZipEntry → Except SanitizeError (List ZipEntry)
  | [] => Except.ok []
  | e :: es =>
    match sanitizeEntry e with
    | Except.error err => Except.error err
    | Except.ok e' =>
      match sanitizeEntries es with
      | Except.error err => Except.error err
      | Except.ok es' => Except.ok (e' :: es')

/-- `zin.read(name)`: `ZipFile` resolves a read by NAME through its
`NameToInfo` map, which is built by scanning the entry list in order so
that for duplicate names the LAST same-named entry wins; the read
returns that entry's bytes. -/
def lookupLast (l : List ZipEntry) (name : String) : Option (List Nat) :=
  match l with
  | [] => none
  | e :: es =>
    match lookupLast es name with
    | some c => some c
    | none => if e.info.filename = name then some e.content else none

/-- One iteration of the loop body exactly as the code performs it:
the bytes are fetched by name from the whole archive `l` (last
duplicate wins), then the target test runs on the iterated entry's
name.  A failed name lookup cannot happen for an entry of the archive;
it is mapped to the archive-read error (Python's `KeyError`). -/
def sanitizeItem (l : List ZipEntry) (e : ZipEntry) : Except SanitizeError ZipEntry :=
  match lookupLast l e.info.filename with
  | none => Except.error SanitizeError.archiveReadError
  | some content =>
    if e.info.filename = targetName then
      match utf8Decode content with
      | none => Except.error SanitizeError.encodingError
      | some xml =>
        Except.ok { info := { filename := e.info.filename, meta := defaultMeta },
                    content := utf8Encode (applyRules xml) }
    else Except.ok ⟨e.info, content⟩

def sanitizeRunAux (l : List ZipEntry) : List ZipEntry → Except SanitizeError (List ZipEntry)
  | [] => Except.ok []
  | e :: es =>
    match sanitizeItem l e with
    | Except.error err => Except.error err
    | Except.ok e' =>
      match sanitizeRunAux l es with
      | Except.error err => Except.error err
      | Except.ok es' => Except.ok (e' :: es')

/-- The whole run with by-name content acquisition: the loop iterates
the entry list in order while every read resolves against the full
archive's name map. -/
def sanitizeRun (l : List ZipEntry) : Except SanitizeError (List ZipEntry) :=
  sanitizeRunAux l l

/-! ### Sufficient conditions for idempotence of the rule chain.

`stageGood w L` says no rule of `L` can manufacture an occurrence of the
literal `w`; `rulesGood L` says every rule's search literal, once
eliminated by its own rule, can never be re-created by that rule or any
later one.  Both are decidable scans over the concrete literals. -/

def stageGood (w : List Char) (L : List (List Char × List Char)) : Bool :=
  L.all (fun q => !q.1.isEmpty && !q.2.isEmpty && noCrossOccurrence q.2 w)

def rulesGood : List (List Char × List Char) → Bool
  | [] => true
  | (s, r) :: L =>
    !s.isEmpty && !r.isEmpty && noCrossOccurrence r s && stageGood s L && rulesGood L

/-! ### Small concrete archives, used to exercise the theorems below. -/

/-- A target entry whose bytes decode to the text `hi`, with
non-default metadata. -/
def sampleTarget : ZipEntry := ⟨⟨"content.xml", ⟨5, 8, 420⟩⟩, [104, 105]⟩

/-- A passthrough entry with bytes that are not valid UTF-8. -/
def sampleOther : ZipEntry := ⟨⟨"meta.xml", ⟨1, 2, 3⟩⟩, [0, 255, 7]⟩

/-- A target entry whose bytes are not decodable as UTF-8. -/
def sampleBad : ZipEntry := ⟨⟨"content.xml", defaultMeta⟩, [255]⟩

def sampleArchive : List ZipEntry := [sampleOther, sampleTarget]

/-- What `sanitizeEntries` produces on `sampleArchive`: the passthrough
entry untouched, the target re-encoded under default metadata. -/
def sampleOutput : List ZipEntry :=
  [sampleOther, ⟨⟨"content.xml", defaultMeta⟩, [104, 105]⟩]

/-- An archive with two entries named `content.xml`. -/
def sampleTwoTargets : List ZipEntry :=
  [sampleTarget, sampleOther, ⟨⟨"content.xml", ⟨9, 9, 9⟩⟩, [97]⟩]

def sampleTwoTargetsOutput : List ZipEntry :=
  [⟨⟨"content.xml", defaultMeta⟩, [104, 105]⟩, sampleOther,
   ⟨⟨"content.xml", defaultMeta⟩, [97]⟩]

/-- What `sanitizeRun` produces on `sampleTwoTargets`: the name lookup
returns the LAST `content.xml` entry's bytes at both target positions,
so both carry the transform of `[97]`, and the first entry's own bytes
`[104, 105]` are never read. -/
def sampleTwoTargetsRunOutput : List ZipEntry :=
  [⟨⟨"content.xml", defaultMeta⟩, [97]⟩, sampleOther,
   ⟨⟨"content.xml", defaultMeta⟩, [97]⟩]

/-- A text with two occurrences of the amount literal, as in the source
document. -/
def sampleAmountText : List Char :=
  "x90<text:s/>000,00 Kč y 90<text:s/>000,00 Kč z".toList

/-! ## Properties of the replacement scan -/

theorem replAux_skip (s r : List Char) : ∀ (k : Nat) (t : List Char),
    replAux s r k t = replAux s r 0 (List.drop k t) := by
  intro k t
  induction t generalizing k with
  | nil => cases k <;> simp [replAux]
  | cons c t ih =>
    cases k with
    | zero => simp
    | succ k' => simpa only [replAux, List.drop_succ_cons] using ih k'

theorem splitAux_skip (s : List Char) : ∀ (k : Nat) (t : List Char),
    splitAux s k t = splitAux s 0 (List.drop k t) := by
  intro k t
  induction t generalizing k with
  | nil => cases k <;> simp [splitAux]
  | cons c t ih =>
    cases k with
    | zero => simp
    | succ k' => simpa only [splitAux, List.drop_succ_cons] using ih k'

theorem splitAux_ne_nil (s : List Char) (k : Nat) (t : List Char) : splitAux s k t ≠ [] := by
  induction t generalizing k with
  | nil => simp [splitAux]
  | cons c t ih =>
    cases k with
    | succ k' => simpa only [splitAux] using ih k'
    | zero =>
      simp only [splitAux]
      split
      · simp
      · split
        · simp
        · simp

theorem replAux_eq_joinSep (s r : List Char) : ∀ (k : Nat) (t : List Char),
    replAux s r k t = joinSep r (splitAux s k t) := by
  intro k t
  induction t generalizing k with
  | nil => cases k <;> simp [replAux, splitAux, joinSep]
  | cons c t ih =>
    cases k with
    | succ k' => simpa only [replAux, splitAux] using ih k'
    | zero =>
      simp only [replAux, splitAux]
      split
      · cases hgs : splitAux s (s.length - 1) t with
        | nil => exact absurd hgs (splitAux_ne_nil s (s.length - 1) t)
        | cons g gs => rw [ih (s.length - 1), hgs]; simp [joinSep]
      · cases hgs : splitAux s 0 t with
        | nil => exact absurd hgs (splitAux_ne_nil s 0 t)
        | cons g gs =>
          rw [ih 0, hgs]
          cases gs with
          | nil => simp [joinSep]
          | cons g2 gs2 => simp [joinSep]

theorem splitAux_length (s : List Char) : ∀ (k : Nat) (t : List Char),
    (splitAux s k t).length = countAux s k t + 1 := by
  intro k t
  induction t generalizing k with
  | nil => cases k <;> simp [splitAux, countAux]
  | cons c t ih =>
    cases k with
    | succ k' => simpa only [splitAux, countAux] using ih k'
    | zero =>
      simp only [splitAux, countAux]
      split
      · simp only [List.length_cons, ih (s.length - 1)]
        omega
      · cases hgs : splitAux s 0 t with
        | nil => exact absurd hgs (splitAux_ne_nil s 0 t)
        | cons g gs =>
          have := ih 0
          rw [hgs] at this
          simpa using this

theorem occursIn_iff (s : List Char) : ∀ t, occursIn s t = true ↔ s <:+: t := by
  intro t
  induction t with
  | nil =>
    simp [occursIn, List.isPrefixOf_iff_prefix, List.prefix_nil, List.infix_nil]
  | cons c t ih =>
    simp [occursIn, List.isPrefixOf_iff_prefix, ih, List.infix_cons_iff]

theorem occursIn_eq_false {s t : List Char} (h : ¬ s <:+: t) : occursIn s t = false := by
  cases hb : occursIn s t
  · rfl
  · exact absurd ((occursIn_iff s t).mp hb) h

theorem noHangover_iff (a b : List Char) : noHangover a b = true ↔
    ∀ x, x ≠ [] → x <:+ a → ¬ x <+: b := by
  induction a with
  | nil =>
    constructor
    · intro _ x hx hsuf
      exact absurd ( List.suffix_nil.mp hsuf) hx
    · intro _
      rfl
  | cons c a ih =>
    simp only [noHangover, Bool.and_eq_true, Bool.not_eq_true', ih]
    constructor
    · rintro ⟨h1, h2⟩ x hx hsuf hp
      rcases List.suffix_cons_iff.mp hsuf with rfl | hsuf'
      · have := List.isPrefixOf_iff_prefix.mpr hp
        rw [h1] at this
        cases this
      · exact h2 x hx hsuf' hp
    · intro h
      refine ⟨?_, fun x hx hsuf hp => h x hx ( List.suffix_cons_iff.mpr (Or.inr hsuf)) hp⟩
      cases hb : List.isPrefixOf (c :: a) b
      · rfl
      · exact absurd ( List.isPrefixOf_iff_prefix.mp hb)
          (h (c :: a) (by simp) List.suffix_rfl)

theorem noCross_spec {r w : List Char} (h : noCrossOccurrence r w = true) :
    (¬ w <:+: r) ∧ (¬ r <:+: w) ∧ (∀ x, x ≠ [] → x <:+ r → ¬ x <+: w) ∧
      (∀ x, x ≠ [] → x <:+ w → ¬ x <+: r) := by
  simp only [noCrossOccurrence, Bool.and_eq_true, Bool.not_eq_true'] at h
  obtain ⟨⟨⟨h1, h2⟩, h3⟩, h4⟩ := h
  refine ⟨?_, ?_, (noHangover_iff r w).mp h3, (noHangover_iff w r).mp h4⟩
  · intro hc
    have := (occursIn_iff w r).mpr hc
    rw [h1] at this
    cases this
  · intro hc
    have := (occursIn_iff r w).mpr hc
    rw [h2] at this
    cases this

theorem occSplit {w A B : List Char} (h : w <:+: A ++ B) :
    w <:+: A ∨ w <:+: B ∨
      ∃ x y, w = x ++ y ∧ x ≠ [] ∧ y ≠ [] ∧ x <:+ A ∧ y <+: B := by
  obtain ⟨u, v, huv⟩ := h
  rcases List.append_eq_append_iff.mp huv with ⟨a, ha1, _⟩ | ⟨c, hc1, hc2⟩
  · exact Or.inl ⟨u, a, ha1.symm⟩
  · rcases List.append_eq_append_iff.mp hc1 with ⟨d, hd1, hd2⟩ | ⟨e, _, he2⟩
    · rcases eq_or_ne d [] with rfl | hd
      · refine Or.inr (Or.inl ( List.IsPrefix.isInfix ⟨v, ?_⟩))
        rw [hc2, hd2]
        simp
      · rcases eq_or_ne c [] with rfl | hc
        · refine Or.inl ( List.IsSuffix.isInfix ⟨u, ?_⟩)
          rw [hd2, hd1]
          simp
        · exact Or.inr (Or.inr ⟨d, c, hd2, hd, hc, ⟨u, hd1.symm⟩, ⟨v, hc2.symm⟩⟩)
    · refine Or.inr (Or.inl ⟨e, v, ?_⟩)
      rw [hc2, he2]

theorem preAppendCases {y A B : List Char} (h : y <+: A ++ B) :
    y <+: A ∨ ∃ y', y = A ++ y' ∧ y' <+: B := by
  obtain ⟨v, hv⟩ := h
  rcases List.append_eq_append_iff.mp hv with ⟨a, ha1, _⟩ | ⟨c, hc1, hc2⟩
  · exact Or.inl ⟨a, ha1.symm⟩
  · exact Or.inr ⟨c, hc1, ⟨v, hc2.symm⟩⟩

theorem joinSep_occurs {r w : List Char} (hw : w ≠ []) (h1 : ¬ w <:+: r)
    (h2 : ¬ r <:+: w) (h3 : ∀ x, x ≠ [] → x <:+ r → ¬ x <+: w)
    (h4 : ∀ x, x ≠ [] → x <:+ w → ¬ x <+: r) :
    ∀ gs, w <:+: joinSep r gs → ∃ g ∈ gs, w <:+: g := by
  intro gs
  induction gs with
  | nil =>
    intro h
    exact absurd ( List.infix_nil.mp h) hw
  | cons g gs ih =>
    intro h
    cases gs with
    | nil => exact ⟨g, by simp, by simpa [joinSep] using h⟩
    | cons g2 gs2 =>
      have hj : joinSep r (g :: g2 :: gs2) = g ++ (r ++ joinSep r (g2 :: gs2)) := by
        simp [joinSep]
      rw [hj] at h
      rcases occSplit h with hA | hB | ⟨x, y, hxy, hx, hy, hxA, hyB⟩
      · exact ⟨g, by simp, hA⟩
      · rcases occSplit hB with hr1 | hrest | ⟨x, y, hxy, hx, _, hxr, hyB⟩
        · exact absurd hr1 h1
        · obtain ⟨g', hg', hwg'⟩ := ih hrest
          exact ⟨g', List.mem_cons_of_mem g hg', hwg'⟩
        · refine absurd ?_ (h3 x hx hxr)
          rw [hxy]
          exact List.prefix_append x y
      · rcases preAppendCases hyB with hyr | ⟨y', hy', _⟩
        · refine absurd hyr (h4 y hy ?_)
          rw [hxy]
          exact List.suffix_append x y
        · refine absurd (⟨x, y', ?_⟩ : r <:+: w) h2
          rw [hxy, hy']
          simp

theorem splitAux_spec (s : List Char) (hs : s ≠ []) :
    ∀ (n : Nat) (t : List Char), t.length ≤ n →
      (∀ p ∈ splitAux s 0 t, p <:+: t) ∧ (∀ p ∈ splitAux s 0 t, ¬ s <:+: p) ∧
        ∃ g gs, splitAux s 0 t = g :: gs ∧ g <+: t := by
  intro n
  induction n with
  | zero =>
    intro t ht
    obtain rfl : t = [] := List.length_eq_zero.mp (Nat.le_zero.mp ht)
    refine ⟨?_, ?_, [], [], by simp [splitAux], List.prefix_rfl⟩
    · intro p hp
      simp only [splitAux, List.mem_singleton] at hp
      subst hp
      exact ⟨[], [], rfl⟩
    · intro p hp
      simp only [splitAux, List.mem_singleton] at hp
      subst hp
      intro hc
      exact hs ( List.infix_nil.mp hc)
  | succ n ih =>
    intro t ht
    cases t with
    | nil => exact ih [] (Nat.zero_le n)
    | cons c t =>
      have htn : t.length ≤ n := by
        simp only [List.length_cons] at ht
        omega
      by_cases hm : List.isPrefixOf s (c :: t) = true
      · have heq : splitAux s 0 (c :: t) = [] :: splitAux s 0 (List.drop (s.length - 1) t) := by
          simp only [splitAux]
          split
          · rw [splitAux_skip]
          · simp_all
        have hlen : (List.drop (s.length - 1) t).length ≤ n := by
          rw [List.length_drop]
          omega
        obtain ⟨ha, hb, _⟩ := ih (List.drop (s.length - 1) t) hlen
        have hsub : List.drop (s.length - 1) t <:+ t := List.drop_suffix _ _
        rw [heq]
        refine ⟨?_, ?_, [], _, rfl, List.nil_prefix⟩
        · intro p hp
          rcases List.mem_cons.mp hp with rfl | hp'
          · exact ⟨[], c :: t, rfl⟩
          · exact List.infix_cons ( List.IsInfix.trans (ha p hp') ( List.IsSuffix.isInfix hsub))
        · intro p hp
          rcases List.mem_cons.mp hp with rfl | hp'
          · intro hc
            exact hs ( List.infix_nil.mp hc)
          · exact hb p hp'
      · obtain ⟨ha, hb, g, gs, hsp, hg⟩ := ih t htn
        have heq : splitAux s 0 (c :: t) = (c :: g) :: gs := by
          simp only [splitAux]
          split
          · exact absurd (by assumption) hm
          · rw [hsp]
        have hcg : (c :: g) <+: (c :: t) := by
          obtain ⟨v, hv⟩ := hg
          exact ⟨v, by rw [List.cons_append, hv]⟩
        rw [heq]
        refine ⟨?_, ?_, c :: g, gs, rfl, hcg⟩
        · intro p hp
          rcases List.mem_cons.mp hp with rfl | hp'
          · exact List.IsPrefix.isInfix hcg
          · refine List.infix_cons (ha p ?_)
            rw [hsp]
            exact List.mem_cons_of_mem g hp'
        · intro p hp
          rcases List.mem_cons.mp hp with rfl | hp'
          · intro hc
            rcases List.infix_cons_iff.mp hc with hpp | hinf
            · exact hm ( List.isPrefixOf_iff_prefix.mpr ( List.IsPrefix.trans hpp hcg))
            · refine hb g ?_ hinf
              rw [hsp]
              exact List.mem_cons_self g gs
          · refine hb p ?_
            rw [hsp]
            exact List.mem_cons_of_mem g hp'

theorem ne_nil_of_isEmpty_eq_false {l : List Char} (h : l.isEmpty = false) : l ≠ [] := by
  intro h0
  rw [h0] at h
  simp at h

theorem replaceAll_eq_joinSep {s : List Char} (r : List Char) (hs : s ≠ []) (t : List Char) :
    replaceAll s r t = joinSep r (splitAux s 0 t) := by
  cases s with
  | nil => exact absurd rfl hs
  | cons a s' => exact replAux_eq_joinSep (a :: s') r 0 t

theorem replAux_id {s : List Char} (r : List Char) : ∀ t, ¬ s <:+: t → replAux s r 0 t = t := by
  intro t
  induction t with
  | nil => intro _; rfl
  | cons c t ih =>
    intro h
    have hm : ¬ List.isPrefixOf s (c :: t) = true := by
      intro hb
      exact h ( List.IsPrefix.isInfix ( List.isPrefixOf_iff_prefix.mp hb))
    simp only [replAux]
    rw [if_neg hm, ih (fun hx => h ( List.infix_cons hx))]

theorem replaceAll_id {s : List Char} (r : List Char) {t : List Char} (h : ¬ s <:+: t) :
    replaceAll s r t = t := by
  have hs : s ≠ [] := by
    rintro rfl
    exact h ⟨[], t, rfl⟩
  cases s with
  | nil => exact absurd rfl hs
  | cons a s' => exact replAux_id r t h

theorem replaceAll_keeps_absent {s r w t : List Char} (hs : s ≠ [])
    (hno : noCrossOccurrence r w = true) (ht : ¬ w <:+: t) :
    ¬ w <:+: replaceAll s r t := by
  intro hc
  have hw : w ≠ [] := by
    rintro rfl
    exact ht ⟨[], t, rfl⟩
  obtain ⟨h1, h2, h3, h4⟩ := noCross_spec hno
  rw [replaceAll_eq_joinSep r hs t] at hc
  obtain ⟨g, hg, hwg⟩ := joinSep_occurs hw h1 h2 h3 h4 _ hc
  obtain ⟨ha, _, _⟩ := splitAux_spec s hs t.length t (Nat.le_refl _)
  exact ht ( List.IsInfix.trans hwg (ha g hg))

theorem replaceAll_self_absent {s r : List Char} (hs : s ≠ [])
    (hno : noCrossOccurrence r s = true) (t : List Char) :
    ¬ s <:+: replaceAll s r t := by
  intro hc
  obtain ⟨h1, h2, h3, h4⟩ := noCross_spec hno
  rw [replaceAll_eq_joinSep r hs t] at hc
  obtain ⟨g, hg, hsg⟩ := joinSep_occurs hs h1 h2 h3 h4 _ hc
  obtain ⟨_, hb, _⟩ := splitAux_spec s hs t.length t (Nat.le_refl _)
  exact hb g hg hsg

theorem applyList_keeps_absent {w : List Char} :
    ∀ (L : List (List Char × List Char)) (u : List Char),
      stageGood w L = true → ¬ w <:+: u → ¬ w <:+: applyList L u := by
  intro L
  induction L with
  | nil => intro u _ h; exact h
  | cons q L ih =>
    obtain ⟨s, r⟩ := q
    intro u hg h
    simp only [stageGood, List.all_cons, Bool.and_eq_true, Bool.not_eq_true'] at hg
    obtain ⟨⟨⟨hs, _⟩, hno⟩, hL⟩ := hg
    simp only [applyList]
    exact ih (replaceAll s r u) hL
      (replaceAll_keeps_absent (ne_nil_of_isEmpty_eq_false hs) hno h)

theorem applyList_absent :
    ∀ (L : List (List Char × List Char)), rulesGood L = true →
      ∀ p ∈ L, ∀ t, ¬ p.1 <:+: applyList L t := by
  intro L
  induction L with
  | nil => intro _ p hp; cases hp
  | cons q L ih =>
    obtain ⟨s, r⟩ := q
    intro hg p hp t
    simp only [rulesGood, Bool.and_eq_true] at hg
    obtain ⟨⟨⟨⟨hs, _⟩, hno⟩, hstage⟩, hrest⟩ := hg
    have hs' : s ≠ [] := ne_nil_of_isEmpty_eq_false (by simpa using hs)
    rcases List.mem_cons.mp hp with rfl | hp'
    · simp only [applyList]
      exact applyList_keeps_absent L (replaceAll s r t) hstage
        (replaceAll_self_absent hs' hno t)
    · simp only [applyList]
      exact ih hrest p hp' (replaceAll s r t)

theorem applyList_id : ∀ (L : List (List Char × List Char)) (u : List Char),
    (∀ p ∈ L, ¬ p.1 <:+: u) → applyList L u = u := by
  intro L
  induction L with
  | nil => intro u _; rfl
  | cons q L ih =>
    obtain ⟨s, r⟩ := q
    intro u h
    simp only [applyList]
    rw [replaceAll_id r (h (s, r) ( List.mem_cons_self _ _))]
    exact ih u (fun p hp => h p ( List.mem_cons_of_mem _ hp))

theorem applyList_idem {L : List (List Char × List Char)} (hg : rulesGood L = true)
    (t : List Char) : applyList L (applyList L t) = applyList L t :=
  applyList_id L (applyList L t) (fun p hp => applyList_absent L hg p hp t)

set_option maxRecDepth 20000 in
theorem rules_good : rulesGood rules = true := by decide

set_option maxRecDepth 20000 in
theorem rules_wf : ∀ p ∈ rules, p.1 ≠ [] ∧ p.2 ≠ [] := by decide

theorem countOcc_pos {s : List Char} (hs : s ≠ []) : ∀ u v, 1 ≤ countOcc s (u ++ (s ++ v)) := by
  intro u
  induction u with
  | nil =>
    intro v
    cases s with
    | nil => exact absurd rfl hs
    | cons a s' =>
      have hm : List.isPrefixOf (a :: s') (a :: (s' ++ v)) = true :=
        List.isPrefixOf_iff_prefix.mpr ⟨v, by simp⟩
      simp only [List.nil_append, List.cons_append, countOcc, countAux]
      split
      · exact Nat.le_add_right 1 _
      · rename_i hfalse
        exact absurd hm hfalse
  | cons c u ih =>
    intro v
    simp only [countOcc, countAux, List.cons_append]
    split
    · exact Nat.le_add_right 1 _
    · exact ih v

/-! ## Properties of the archive pass -/

theorem sanitizeEntries_ok_pointwise :
    ∀ (l out : List ZipEntry), sanitizeEntries l = Except.ok out →
      out.length = l.length ∧
        ∀ i (hi : i < l.length) (ho : i < out.length),
          sanitizeEntry (l.get ⟨i, hi⟩) = Except.ok (out.get ⟨i, ho⟩) := by
  intro l
  induction l with
  | nil =>
    intro out h
    simp only [sanitizeEntries] at h
    injection h with h'
    subst h'
    exact ⟨rfl, fun i hi _ => absurd hi (Nat.not_lt_zero i)⟩
  | cons e es ih =>
    intro out h
    simp only [sanitizeEntries] at h
    cases he : sanitizeEntry e with
    | error err => simp [he] at h
    | ok e' =>
      simp only [he] at h
      cases hes : sanitizeEntries es with
      | error err => simp [hes] at h
      | ok es' =>
        simp only [hes] at h
        injection h with h'
        subst h'
        obtain ⟨hlen, hpt⟩ := ih es' hes
        refine ⟨by simp [hlen], ?_⟩
        intro i hi ho
        cases i with
        | zero => exact he
        | succ n =>
          exact hpt n (Nat.lt_of_succ_lt_succ hi) (Nat.lt_of_succ_lt_succ ho)

theorem sanitizeEntry_target {e e' : ZipEntry} (ht : e.info.filename = targetName)
    (h : sanitizeEntry e = Except.ok e') :
    ∃ xml, utf8Decode e.content = some xml ∧
      e' = ⟨⟨e.info.filename, defaultMeta⟩, utf8Encode (applyRules xml)⟩ := by
  unfold sanitizeEntry at h
  rw [if_pos ht] at h
  cases hd : utf8Decode e.content with
  | none => simp [hd] at h
  | some xml =>
    simp only [hd] at h
    injection h with h'
    exact ⟨xml, rfl, h'.symm⟩

theorem sanitizeEntry_passthrough {e e' : ZipEntry} (hn : e.info.filename ≠ targetName)
    (h : sanitizeEntry e = Except.ok e') : e' = e := by
  unfold sanitizeEntry at h
  rw [if_neg hn] at h
  injection h with h'
  exact h'.symm

theorem sanitizeEntry_filename {e e' : ZipEntry} (h : sanitizeEntry e = Except.ok e') :
    e'.info.filename = e.info.filename := by
  unfold sanitizeEntry at h
  by_cases ht : e.info.filename = targetName
  · rw [if_pos ht] at h
    cases hd : utf8Decode e.content with
    | none => simp [hd] at h
    | some xml =>
      simp only [hd] at h
      injection h with h'
      rw [← h']
  · rw [if_neg ht] at h
    injection h with h'
    rw [← h']

theorem sanitizeEntries_map_filename :
    ∀ (l out : List ZipEntry), sanitizeEntries l = Except.ok out →
      out.map (fun e => e.info.filename) = l.map (fun e => e.info.filename) := by
  intro l
  induction l with
  | nil =>
    intro out h
    simp only [sanitizeEntries] at h
    injection h with h'
    subst h'
    rfl
  | cons e es ih =>
    intro out h
    simp only [sanitizeEntries] at h
    cases he : sanitizeEntry e with
    | error err => simp [he] at h
    | ok e' =>
      simp only [he] at h
      cases hes : sanitizeEntries es with
      | error err => simp [hes] at h
      | ok es' =>
        simp only [hes] at h
        injection h with h'
        subst h'
        simp only [List.map_cons]
        rw [sanitizeEntry_filename he, ih es' hes]

theorem sanitizeEntry_error_eq {e : ZipEntry} {err : SanitizeError}
    (h : sanitizeEntry e = Except.error err) : err = SanitizeError.encodingError := by
  unfold sanitizeEntry at h
  by_cases ht : e.info.filename = targetName
  · rw [if_pos ht] at h
    cases hd : utf8Decode e.content with
    | none =>
      simp only [hd] at h
      injection h with h'
      exact h'.symm
    | some xml => simp [hd] at h
  · rw [if_neg ht] at h
    simp at h

theorem sanitizeEntries_error_of_target_none :
    ∀ (l : List ZipEntry) (i : Nat) (hi : i < l.length),
      (l.get ⟨i, hi⟩).info.filename = targetName →
      utf8Decode (l.get ⟨i, hi⟩).content = none →
      sanitizeEntries l = Except.error SanitizeError.encodingError := by
  intro l
  induction l with
  | nil => intro i hi; exact absurd hi (by simp)
  | cons e es ih =>
    intro i hi ht hd
    cases i with
    | zero =>
      have ht' : e.info.filename = targetName := ht
      have hd' : utf8Decode e.content = none := hd
      have he : sanitizeEntry e = Except.error SanitizeError.encodingError := by
        unfold sanitizeEntry
        rw [if_pos ht']
        simp [hd']
      simp [sanitizeEntries, he]
    | succ n =>
      have hrec := ih n (Nat.lt_of_succ_lt_succ hi) ht hd
      simp only [sanitizeEntries]
      cases he : sanitizeEntry e with
      | error err => simp [sanitizeEntry_error_eq he]
      | ok e' => simp [hrec]

theorem target_entry_spec {l out : List ZipEntry} (h : sanitizeEntries l = Except.ok out)
    {i : Nat} (hi : i < l.length) (ho : i < out.length)
    (ht : (l.get ⟨i, hi⟩).info.filename = targetName) :
    ∃ xml, utf8Decode (l.get ⟨i, hi⟩).content = some xml ∧
      (out.get ⟨i, ho⟩).content = utf8Encode (applyRules xml) := by
  obtain ⟨_, hpt⟩ := sanitizeEntries_ok_pointwise l out h
  obtain ⟨xml, hd, he⟩ := sanitizeEntry_target ht (hpt i hi ho)
  exact ⟨xml, hd, by rw [he]⟩

/-! ## The by-name run, and its agreement with the unique-name run -/

theorem lookupLast_eq_none {name : String} :
    ∀ {es : List ZipEntry}, name ∉ es.map (fun e => e.info.filename) →
      lookupLast es name = none := by
  intro es
  induction es with
  | nil => intro _; rfl
  | cons e es ih =>
    intro h
    simp only [List.map_cons, List.mem_cons, not_or] at h
    obtain ⟨h1, h2⟩ := h
    simp only [lookupLast, ih h2]
    rw [if_neg (fun hh => h1 hh.symm)]

theorem lookupLast_self :
    ∀ (l : List ZipEntry), (l.map (fun e => e.info.filename)).Nodup →
      ∀ e ∈ l, lookupLast l e.info.filename = some e.content := by
  intro l
  induction l with
  | nil => intro _ e he; cases he
  | cons e0 es ih =>
    intro hnd e he
    simp only [List.map_cons, List.nodup_cons] at hnd
    obtain ⟨hn0, hnd'⟩ := hnd
    rcases List.mem_cons.mp he with rfl | he'
    · simp [lookupLast, lookupLast_eq_none hn0]
    · simp only [lookupLast, ih hnd' e he']

theorem sanitizeItem_eq_sanitizeEntry {l : List ZipEntry} {e : ZipEntry}
    (hl : lookupLast l e.info.filename = some e.content) :
    sanitizeItem l e = sanitizeEntry e := by
  unfold sanitizeItem sanitizeEntry
  rw [hl]

theorem sanitizeRunAux_eq (l : List ZipEntry) :
    ∀ sub, (∀ e ∈ sub, lookupLast l e.info.filename = some e.content) →
      sanitizeRunAux l sub = sanitizeEntries sub := by
  intro sub
  induction sub with
  | nil => intro _; rfl
  | cons e es ih =>
    intro h
    simp only [sanitizeRunAux, sanitizeEntries]
    rw [sanitizeItem_eq_sanitizeEntry (h e ( List.mem_cons_self _ _)),
      ih (fun e' he' => h e' ( List.mem_cons_of_mem _ he'))]

/-- On archives satisfying the spec's unique-name invariant, the
by-name run and the per-entry run coincide. -/
theorem sanitizeRun_eq_of_unique_names (l : List ZipEntry)
    (hnd : (l.map (fun e => e.info.filename)).Nodup) :
    sanitizeRun l = sanitizeEntries l :=
  sanitizeRunAux_eq l l (fun e he => lookupLast_self l hnd e he)

theorem sanitizeRunAux_ok_pointwise (l : List ZipEntry) :
    ∀ (sub out : List ZipEntry), sanitizeRunAux l sub = Except.ok out →
      out.length = sub.length ∧
        ∀ i (hi : i < sub.length) (ho : i < out.length),
          sanitizeItem l (sub.get ⟨i, hi⟩) = Except.ok (out.get ⟨i, ho⟩) := by
  intro sub
  induction sub with
  | nil =>
    intro out h
    simp only [sanitizeRunAux] at h
    injection h with h'
    subst h'
    exact ⟨rfl, fun i hi _ => absurd hi (Nat.not_lt_zero i)⟩
  | cons e es ih =>
    intro out h
    simp only [sanitizeRunAux] at h
    cases he : sanitizeItem l e with
    | error err => simp [he] at h
    | ok e' =>
      simp only [he] at h
      cases hes : sanitizeRunAux l es with
      | error err => simp [hes] at h
      | ok es' =>
        simp only [hes] at h
        injection h with h'
        subst h'
        obtain ⟨hlen, hpt⟩ := ih es' hes
        refine ⟨by simp [hlen], ?_⟩
        intro i hi ho
        cases i with
        | zero => exact he
        | succ n =>
          exact hpt n (Nat.lt_of_succ_lt_succ hi) (Nat.lt_of_succ_lt_succ ho)

theorem sanitizeItem_target {l : List ZipEntry} {e e' : ZipEntry}
    (ht : e.info.filename = targetName) (h : sanitizeItem l e = Except.ok e') :
    ∃ cont xml, lookupLast l targetName = some cont ∧ utf8Decode cont = some xml ∧
      e' = ⟨⟨targetName, defaultMeta⟩, utf8Encode (applyRules xml)⟩ := by
  unfold sanitizeItem at h
  rw [ht] at h
  cases hc : lookupLast l targetName with
  | none => simp [hc] at h
  | some cont =>
    simp only [hc, eq_self_iff_true, if_true] at h
    cases hd : utf8Decode cont with
    | none => simp [hd] at h
    | some xml =>
      simp only [hd] at h
      injection h with h'
      exact ⟨cont, xml, rfl, hd, h'.symm⟩

/-! ## The claims -/

/-- C1: for every archive entry named `content.xml`, the output entry's
content is the UTF-8 encoding of the result of applying the full
ordered rule list (each rule acting on the previous rule's output) to
the UTF-8 decoding of the input bytes. -/
theorem c1_target_rewritten (l out : List ZipEntry) (h : sanitizeEntries l = Except.ok out)
    (i : Nat) (hi : i < l.length) (ho : i < out.length)
    (ht : (l.get ⟨i, hi⟩).info.filename = targetName) :
    ∃ xml, utf8Decode (l.get ⟨i, hi⟩).content = some xml ∧
      (out.get ⟨i, ho⟩).content = utf8Encode (applyRules xml) :=
  target_entry_spec h hi ho ht

theorem c1_witness :
    ∃ xml, utf8Decode (sampleArchive.get ⟨1, by decide⟩).content = some xml ∧
      ((sampleOutput.get ⟨1, by decide⟩)).content = utf8Encode (applyRules xml) :=
  c1_target_rewritten sampleArchive sampleOutput rfl 1 (by decide) (by decide) rfl

/-- C2: no entry is added or dropped: every name occurs in the output
archive exactly as often as in the input archive. -/
theorem c2_completeness (l out : List ZipEntry) (h : sanitizeEntries l = Except.ok out)
    (name : String) :
    List.count name (out.map (fun e => e.info.filename)) =
      List.count name (l.map (fun e => e.info.filename)) := by
  rw [sanitizeEntries_map_filename l out h]

theorem c2_witness :
    List.count "content.xml" (sampleOutput.map (fun e => e.info.filename)) =
      List.count "content.xml" (sampleArchive.map (fun e => e.info.filename)) :=
  c2_completeness sampleArchive sampleOutput rfl "content.xml"

/-- C3: every entry not named `content.xml` is copied into the output
unchanged: bytes and metadata of the output entry equal those of the
input entry. -/
theorem c3_passthrough_exact (l out : List ZipEntry) (h : sanitizeEntries l = Except.ok out)
    (i : Nat) (hi : i < l.length) (ho : i < out.length)
    (hn : (l.get ⟨i, hi⟩).info.filename ≠ targetName) :
    out.get ⟨i, ho⟩ = l.get ⟨i, hi⟩ := by
  obtain ⟨_, hpt⟩ := sanitizeEntries_ok_pointwise l out h
  exact sanitizeEntry_passthrough hn (hpt i hi ho)

theorem c3_witness : sampleOutput.get ⟨0, by decide⟩ = sampleArchive.get ⟨0, by decide⟩ :=
  c3_passthrough_exact sampleArchive sampleOutput rfl 0 (by decide) (by decide) (by decide)

/-- C4: every rule is an all-occurrences substitution: its output is
the pattern-free pieces of the text joined by the replacement literal,
there are exactly `countOcc` matches (one fewer than pieces), and in
particular no occurrence of the amount literal survives its rule. -/
theorem c4_every_occurrence_replaced (p : List Char × List Char) (hp : p ∈ rules)
    (t : List Char) :
    replaceAll p.1 p.2 t = joinSep p.2 (splitAux p.1 0 t) ∧
      (splitAux p.1 0 t).length = countOcc p.1 t + 1 ∧
      occursIn sAmount (replaceAll sAmount rAmount t) = false := by
  refine ⟨replaceAll_eq_joinSep p.2 (rules_wf p hp).1 t, splitAux_length p.1 0 t, ?_⟩
  exact occursIn_eq_false (@replaceAll_self_absent sAmount rAmount (by decide) (by decide) t)

theorem c4_witness :
    replaceAll sAmount rAmount sampleAmountText =
        joinSep rAmount (splitAux sAmount 0 sampleAmountText) ∧
      (splitAux sAmount 0 sampleAmountText).length = countOcc sAmount sampleAmountText + 1 ∧
      occursIn sAmount (replaceAll sAmount rAmount sampleAmountText) = false :=
  c4_every_occurrence_replaced (sAmount, rAmount) (by decide) sampleAmountText

/-- C5: a rule whose search literal does not occur in the text leaves
the text unchanged; `replaceAll` is total, so no exception is raised
and the run does not fail. -/
theorem c5_unmatched_rule_noop (p : List Char × List Char) (_hp : p ∈ rules)
    (t : List Char) (h : occursIn p.1 t = false) : replaceAll p.1 p.2 t = t := by
  apply replaceAll_id
  intro hc
  have hb := (occursIn_iff p.1 t).mpr hc
  rw [h] at hb
  cases hb

theorem c5_witness : replaceAll sVS rVS "abc".toList = "abc".toList :=
  c5_unmatched_rule_noop (sVS, rVS) (by decide) "abc".toList (by decide)

/-- C6: the full rule chain is idempotent on every input text: running
the eleven substitutions a second time changes nothing. -/
theorem c6_rule_chain_idempotent : ∀ t : List Char, applyRules (applyRules t) = applyRules t :=
  fun t => applyList_idem rules_good t

/-- C7: a target entry whose bytes are not valid UTF-8 aborts the run
with the encoding error; no output archive is produced. -/
theorem c7_bad_utf8_aborts (l : List ZipEntry) (i : Nat) (hi : i < l.length)
    (ht : (l.get ⟨i, hi⟩).info.filename = targetName)
    (hd : utf8Decode (l.get ⟨i, hi⟩).content = none) :
    sanitizeEntries l = Except.error SanitizeError.encodingError :=
  sanitizeEntries_error_of_target_none l i hi ht hd

theorem c7_witness :
    sanitizeEntries [sampleOther, sampleBad] = Except.error SanitizeError.encodingError :=
  c7_bad_utf8_aborts [sampleOther, sampleBad] 1 (by decide) rfl rfl

/-- C8, refuted as stated: on the duplicate-name archive
`sampleTwoTargets` the by-name run succeeds, the first `content.xml`
entry's own bytes decode to `hi`, yet the output at its position is
not the transform of those bytes — `zin.read(item.filename)` returned
the last duplicate's bytes instead. -/
theorem c8_counterexample :
    sanitizeRun sampleTwoTargets = Except.ok sampleTwoTargetsRunOutput ∧
      utf8Decode (sampleTwoTargets.get ⟨0, by decide⟩).content = some "hi".toList ∧
      (sampleTwoTargetsRunOutput.get ⟨0, by decide⟩).content ≠
        utf8Encode (applyRules "hi".toList) :=
  ⟨rfl, rfl, by decide⟩

/-- C8 (amended): when several entries are named `content.xml`, the run
is not an error (the looked-up bytes decoding permitting), and every
such entry position is rewritten in exactly the same way: each receives
the full rule chain applied to the bytes of the LAST same-named entry,
since content is fetched by name and the name map is last-wins. -/
theorem c8_all_targets_last_bytes (l out : List ZipEntry) (h : sanitizeRun l = Except.ok out)
    (i j : Nat) (hi : i < l.length) (hj : j < l.length)
    (ho : i < out.length) (hoj : j < out.length) (_hij : i ≠ j)
    (hti : (l.get ⟨i, hi⟩).info.filename = targetName)
    (htj : (l.get ⟨j, hj⟩).info.filename = targetName) :
    ∃ cont xml, lookupLast l targetName = some cont ∧ utf8Decode cont = some xml ∧
      out.get ⟨i, ho⟩ = ⟨⟨targetName, defaultMeta⟩, utf8Encode (applyRules xml)⟩ ∧
      out.get ⟨j, hoj⟩ = ⟨⟨targetName, defaultMeta⟩, utf8Encode (applyRules xml)⟩ := by
  obtain ⟨_, hpt⟩ := sanitizeRunAux_ok_pointwise l l out h
  obtain ⟨ci, xi, hci, hdi, hei⟩ := sanitizeItem_target hti (hpt i hi ho)
  obtain ⟨cj, xj, hcj, hdj, hej⟩ := sanitizeItem_target htj (hpt j hj hoj)
  rw [hci] at hcj
  injection hcj with hcc
  subst hcc
  rw [hdi] at hdj
  injection hdj with hxx
  subst hxx
  exact ⟨ci, xi, hci, hdi, hei, hej⟩

theorem c8_witness :
    ∃ cont xml, lookupLast sampleTwoTargets targetName = some cont ∧
      utf8Decode cont = some xml ∧
      sampleTwoTargetsRunOutput.get ⟨0, by decide⟩ =
        ⟨⟨targetName, defaultMeta⟩, utf8Encode (applyRules xml)⟩ ∧
      sampleTwoTargetsRunOutput.get ⟨2, by decide⟩ =
        ⟨⟨targetName, defaultMeta⟩, utf8Encode (applyRules xml)⟩ :=
  c8_all_targets_last_bytes sampleTwoTargets sampleTwoTargetsRunOutput rfl 0 2
    (by decide) (by decide) (by decide) (by decide) (by decide) rfl rfl

/-- C9: the output archive lists its entries in exactly the input
order: the sequence of names is preserved, not merely the name
multiset. -/
theorem c9_order_preserved (l out : List ZipEntry) (h : sanitizeEntries l = Except.ok out) :
    out.map (fun e => e.info.filename) = l.map (fun e => e.info.filename) :=
  sanitizeEntries_map_filename l out h

theorem c9_witness :
    sampleTwoTargetsOutput.map (fun e => e.info.filename) =
      sampleTwoTargets.map (fun e => e.info.filename) :=
  c9_order_preserved sampleTwoTargets sampleTwoTargetsOutput rfl

/-- C10: the VS rule replaces the bare digit string wherever it occurs,
whatever surrounds it: in any context `u ++ sVS ++ v` there is at
least one match and afterwards no occurrence of the digits remains. -/
theorem c10_vs_replaced_everywhere (u v : List Char) :
    1 ≤ countOcc sVS (u ++ (sVS ++ v)) ∧
      occursIn sVS (replaceAll sVS rVS (u ++ (sVS ++ v))) = false := by
  constructor
  · exact @countOcc_pos sVS (by decide) u v
  · exact occursIn_eq_false
      (@replaceAll_self_absent sVS rVS (by decide) (by decide) (u ++ (sVS ++ v)))

end Sanitize
